import Mathlib

/-!
Shallow embedding of the golang-index indexing core (Netflix-Skunkworks/golang-index).

Times are modelled as integers (seconds). The Postgres tables of the db package
(`repo_indexing`, `repos`, `repo_tags`) are modelled as lists of rows, and each
SQL statement of `internal/db` is translated into a pure function on those lists.
Statements executed inside a database transaction are given an explicit outcome
oracle (each statement may fail), with rollback modelled by returning the
pre-transaction state.
-/

namespace GolangIndex

/-- A row of the `repo_indexing` table (the global reindex lease). -/
structure GlobalLease where
  indexing_began : Int
  indexing_finished : Int
deriving DecidableEq, Repr

/-- A row of the `repos` table (one per discovered repository). -/
structure RepoRow where
  org_repo_name : String
  indexing_began : Int
  indexing_finished : Int
deriving DecidableEq, Repr

/-- A row of the `repo_tags` table. -/
structure RepoTagRow where
  org_repo_name : String
  tag_name : String
  module_path : String
  created : Int
deriving DecidableEq, Repr

/-- The `db.RepoTag` input struct of `StoreRepoTags`. -/
structure RepoTag where
  OrgRepoName : String
  TagName : String
  ModulePath : String
  Created : Int
deriving DecidableEq, Repr

/-- The visible database state: the three tables of the schema. -/
structure DBState where
  repo_indexing : List GlobalLease
  repos : List RepoRow
  repo_tags : List RepoTagRow
deriving DecidableEq, Repr

/-- Eligibility predicate of `NextReindexAllReposWork`:
`indexing_began + ttl < NOW() AND indexing_finished + period < NOW()`. -/
def globalLeaseEligible (now ttl period : Int) (g : GlobalLease) : Bool :=
  decide (g.indexing_began + ttl < now) && decide (g.indexing_finished + period < now)

/-- Embedding of `DB.NextReindexAllReposWork`: an unconditional
`UPDATE repo_indexing SET indexing_began = NOW() WHERE <eligible>` over every row
of the table, returning `RowsAffected() > 0` together with the updated table. -/
def NextReindexAllReposWork (rows : List GlobalLease) (now ttl period : Int) :
    Bool × List GlobalLease :=
  (decide (0 < (rows.filter (globalLeaseEligible now ttl period)).length),
   rows.map (fun g =>
     if globalLeaseEligible now ttl period g then { g with indexing_began := now } else g))

/-- Eligibility predicate of `NextReindexRepoTagsWork`, applied per `repos` row. -/
def repoEligible (now ttl period : Int) (r : RepoRow) : Bool :=
  decide (r.indexing_began + ttl < now) && decide (r.indexing_finished + period < now)

/-- The subquery `SELECT org_repo_name FROM repos WHERE <eligible>
ORDER BY indexing_finished ASC LIMIT 1` applied to an already-filtered row list:
returns a row with minimal `indexing_finished` (first such row on ties). -/
def oldestFinished : List RepoRow → Option RepoRow
  | [] => none
  | r :: rs =>
    match oldestFinished rs with
    | none => some r
    | some b => if b.indexing_finished < r.indexing_finished then some b else some r

/-- Embedding of `DB.NextReindexRepoTagsWork`: update the row selected by the
subquery, setting `indexing_began = NOW()`, and return its `org_repo_name`
(`none` models the `sql.ErrNoRows` / `workWasFound = false` path). -/
def NextReindexRepoTagsWork (rows : List RepoRow) (now ttl period : Int) :
    Option String × List RepoRow :=
  match oldestFinished (rows.filter (repoEligible now ttl period)) with
  | none => (none, rows)
  | some sel =>
    (some sel.org_repo_name,
     rows.map (fun r =>
       if r.org_repo_name = sel.org_repo_name then { r with indexing_began := now } else r))

lemma nextReindexAllRepos_fst (g : GlobalLease) (now ttl period : Int) :
    (NextReindexAllReposWork [g] now ttl period).1 = globalLeaseEligible now ttl period g := by
  by_cases h : globalLeaseEligible now ttl period g = true <;>
    simp [NextReindexAllReposWork, h]

lemma nextReindexAllRepos_snd (g : GlobalLease) (now ttl period : Int) :
    (NextReindexAllReposWork [g] now ttl period).2 =
      [if globalLeaseEligible now ttl period g then { g with indexing_began := now } else g] := by
  simp [NextReindexAllReposWork]

/-- Claim C1: on the singleton `repo_indexing` row, `NextReindexAllReposWork`
returns true iff `now > indexing_began + ttl` and `now > indexing_finished + period`;
it sets `indexing_began = now` exactly when it returns true (and leaves the row
unchanged otherwise); and after a successful call any second call made within
`ttl` of the first (in particular immediately, with positive ttl) returns false. -/
theorem nextReindexAllReposWork_lease_protocol (g : GlobalLease) (now now2 ttl period : Int) :
    ((NextReindexAllReposWork [g] now ttl period).1 = true ↔
      (g.indexing_began + ttl < now ∧ g.indexing_finished + period < now)) ∧
    ((NextReindexAllReposWork [g] now ttl period).1 = true →
      (NextReindexAllReposWork [g] now ttl period).2 = [{ g with indexing_began := now }]) ∧
    ((NextReindexAllReposWork [g] now ttl period).1 = false →
      (NextReindexAllReposWork [g] now ttl period).2 = [g]) ∧
    (0 < ttl → (NextReindexAllReposWork [g] now ttl period).1 = true → now2 ≤ now + ttl →
      (NextReindexAllReposWork (NextReindexAllReposWork [g] now ttl period).2
        now2 ttl period).1 = false) := by
  have hfst := nextReindexAllRepos_fst g now ttl period
  have hsnd := nextReindexAllRepos_snd g now ttl period
  refine ⟨?_, ?_, ?_, ?_⟩
  · rw [hfst]; simp [globalLeaseEligible]
  · intro h
    rw [hfst] at h
    rw [hsnd, h]
    simp
  · intro h
    rw [hfst] at h
    rw [hsnd, h]
    simp
  · intro _ h hle
    rw [hfst] at h
    rw [hsnd, h]
    rw [nextReindexAllRepos_fst]
    simp only [globalLeaseEligible]
    have : ¬ ({ g with indexing_began := now } : GlobalLease).indexing_began + ttl < now2 := by
      show ¬ now + ttl < now2
      omega
    simp [this]

/-- Witness for C1 at a concrete input: the first call at `now = 10` with
`ttl = 5`, `period = 3` on a lease last touched at time 0 succeeds, and an
immediate second call fails. -/
theorem nextReindexAllReposWork_lease_protocol_witness :
    ((0 : Int) < 5 ∧ (NextReindexAllReposWork [⟨0, 0⟩] 10 5 3).1 = true ∧ (10 : Int) ≤ 10 + 5) ∧
    (NextReindexAllReposWork (NextReindexAllReposWork [⟨0, 0⟩] 10 5 3).2 10 5 3).1 = false := by
  have h1 : (NextReindexAllReposWork [(⟨0, 0⟩ : GlobalLease)] 10 5 3).1 = true :=
    (nextReindexAllReposWork_lease_protocol ⟨0, 0⟩ 10 10 5 3).1.mpr (by decide)
  exact ⟨⟨by decide, h1, by decide⟩,
    (nextReindexAllReposWork_lease_protocol ⟨0, 0⟩ 10 10 5 3).2.2.2 (by decide) h1 (by decide)⟩

lemma oldestFinished_cons (r : RepoRow) (rs : List RepoRow) :
    oldestFinished (r :: rs) =
      match oldestFinished rs with
      | none => some r
      | some b => if b.indexing_finished < r.indexing_finished then some b else some r := rfl

lemma oldestFinished_eq_none {l : List RepoRow} : oldestFinished l = none ↔ l = [] := by
  cases l with
  | nil => simp [oldestFinished]
  | cons r rs =>
    rw [oldestFinished_cons]
    cases h : oldestFinished rs with
    | none => simp
    | some b =>
      simp only [List.cons_ne_nil, iff_false]
      split <;> simp

lemma oldestFinished_mem {l : List RepoRow} {r : RepoRow} (h : oldestFinished l = some r) :
    r ∈ l := by
  induction l with
  | nil => simp [oldestFinished] at h
  | cons x xs ih =>
    rw [oldestFinished_cons] at h
    cases hx : oldestFinished xs with
    | none =>
      rw [hx] at h
      simp only [Option.some.injEq] at h
      simp [h]
    | some b =>
      rw [hx] at h
      simp only at h
      split at h
      · simp only [Option.some.injEq] at h
        subst h
        exact List.mem_cons_of_mem x (ih hx)
      · simp only [Option.some.injEq] at h
        simp [h]

lemma oldestFinished_min (l : List RepoRow) :
    ∀ r, oldestFinished l = some r → ∀ x ∈ l, r.indexing_finished ≤ x.indexing_finished := by
  induction l with
  | nil => intro r h; simp [oldestFinished] at h
  | cons y ys ih =>
    intro r h x hx
    rw [oldestFinished_cons] at h
    cases hy : oldestFinished ys with
    | none =>
      rw [hy] at h
      simp only [Option.some.injEq] at h
      subst h
      rcases List.mem_cons.mp hx with hx | hx
      · rw [hx]
      · rw [oldestFinished_eq_none.mp hy] at hx
        simp at hx
    | some b =>
      rw [hy] at h
      simp only at h
      rcases List.mem_cons.mp hx with hx | hx
      · subst hx
        split at h
        · simp only [Option.some.injEq] at h
          subst h
          rename_i hlt
          omega
        · simp only [Option.some.injEq] at h
          subst h
          omega
      · split at h
        · simp only [Option.some.injEq] at h
          subst h
          exact ih b hy x hx
        · simp only [Option.some.injEq] at h
          subst h
          rename_i hlt
          have := ih b hy x hx
          omega

lemma mem_filter_of_eligible {rows : List RepoRow} {x : RepoRow} (p : RepoRow → Bool)
    (hx : x ∈ rows) (he : p x = true) : x ∈ rows.filter p :=
  List.mem_filter.mpr ⟨hx, he⟩

/-- Claim C2: over any set of `repos` rows with distinct names, the acquire
operation returns `none` exactly when no row is eligible (leaving the table
unchanged), and otherwise returns the name of an eligible row whose
`indexing_finished` is minimal among all eligible rows; row-for-row, exactly the
rows bearing the returned name (a single row, by uniqueness) are marked begun at
`now`, every other row being unchanged. -/
theorem nextReindexRepoTagsWork_selects_oldest (rows : List RepoRow) (now ttl period : Int)
    (hnd : (rows.map RepoRow.org_repo_name).Nodup) :
    ((NextReindexRepoTagsWork rows now ttl period).1 = none ↔
      ∀ r ∈ rows, repoEligible now ttl period r = false) ∧
    ((NextReindexRepoTagsWork rows now ttl period).1 = none →
      (NextReindexRepoTagsWork rows now ttl period).2 = rows) ∧
    (∀ name, (NextReindexRepoTagsWork rows now ttl period).1 = some name →
      ∃ sel ∈ rows, sel.org_repo_name = name ∧
        repoEligible now ttl period sel = true ∧
        (∀ x ∈ rows, repoEligible now ttl period x = true →
          sel.indexing_finished ≤ x.indexing_finished) ∧
        (∀ x ∈ rows, x.org_repo_name = name → x = sel) ∧
        List.Forall₂ (fun old new =>
          if old.org_repo_name = name then new = { old with indexing_began := now }
          else new = old)
          rows (NextReindexRepoTagsWork rows now ttl period).2) := by
  refine ⟨?_, ?_, ?_⟩
  · cases hsel : oldestFinished (rows.filter (repoEligible now ttl period)) with
    | none =>
      simp only [NextReindexRepoTagsWork, hsel, true_iff]
      have hemp := oldestFinished_eq_none.mp hsel
      intro r hr
      by_contra hcon
      have : r ∈ rows.filter (repoEligible now ttl period) :=
        mem_filter_of_eligible _ hr (by simpa using hcon)
      rw [hemp] at this
      simp at this
    | some sel =>
      simp only [NextReindexRepoTagsWork, hsel, reduceCtorEq, false_iff, not_forall]
      have hmem := List.mem_filter.mp (oldestFinished_mem hsel)
      exact ⟨sel, hmem.1, by simp [hmem.2]⟩
  · cases hsel : oldestFinished (rows.filter (repoEligible now ttl period)) with
    | none => simp [NextReindexRepoTagsWork, hsel]
    | some sel => simp [NextReindexRepoTagsWork, hsel]
  · intro name hname
    cases hsel : oldestFinished (rows.filter (repoEligible now ttl period)) with
    | none => simp [NextReindexRepoTagsWork, hsel] at hname
    | some sel =>
      simp only [NextReindexRepoTagsWork, hsel, Option.some.injEq] at hname
      have hmem := List.mem_filter.mp (oldestFinished_mem hsel)
      refine ⟨sel, hmem.1, hname, hmem.2, ?_, ?_, ?_⟩
      · intro x hx he
        exact oldestFinished_min _ sel hsel x (mem_filter_of_eligible _ hx he)
      · intro x hx hxname
        exact List.inj_on_of_nodup_map hnd hx hmem.1 (by rw [hxname, hname])
      · simp only [NextReindexRepoTagsWork, hsel]
        rw [List.forall₂_map_right_iff, List.forall₂_same]
        intro x _
        rw [← hname]
        split <;> simp_all

/-- Witness for C2 at a concrete input: two eligible repos, the one with the
older `indexing_finished` is selected. -/
theorem nextReindexRepoTagsWork_selects_oldest_witness :
    ∃ sel ∈ [(⟨"a/a", 0, 5⟩ : RepoRow), ⟨"b/b", 0, 2⟩], sel.org_repo_name = "b/b" ∧
      repoEligible 100 10 10 sel = true ∧
      (∀ x ∈ [(⟨"a/a", 0, 5⟩ : RepoRow), ⟨"b/b", 0, 2⟩], repoEligible 100 10 10 x = true →
        sel.indexing_finished ≤ x.indexing_finished) ∧
      (∀ x ∈ [(⟨"a/a", 0, 5⟩ : RepoRow), ⟨"b/b", 0, 2⟩], x.org_repo_name = "b/b" → x = sel) ∧
      List.Forall₂ (fun old new =>
        if old.org_repo_name = "b/b" then new = { old with indexing_began := 100 }
        else new = old)
        [(⟨"a/a", 0, 5⟩ : RepoRow), ⟨"b/b", 0, 2⟩]
        (NextReindexRepoTagsWork [⟨"a/a", 0, 5⟩, ⟨"b/b", 0, 2⟩] 100 10 10).2 :=
  (nextReindexRepoTagsWork_selects_oldest [⟨"a/a", 0, 5⟩, ⟨"b/b", 0, 2⟩] 100 10 10
    (by decide)).2.2 "b/b" (by decide)

/-- The `DELETE FROM repo_tags WHERE org_repo_name = $1 OR ... ` statement of
`StoreRepoTags`: removes every tag row belonging to one of the given repos. -/
def deleteTagsFor (names : List String) (ts : List RepoTagRow) : List RepoTagRow :=
  ts.filter (fun t => !(names.contains t.org_repo_name))

/-- The `(org_repo_name, tag_name)` conflict key of the `repo_tags` insert. -/
def tagKeyMatches (rt : RepoTag) (row : RepoTagRow) : Bool :=
  row.org_repo_name == rt.OrgRepoName && row.tag_name == rt.TagName

/-- The `repo_tags` row produced for one `db.RepoTag` value. -/
def toRow (rt : RepoTag) : RepoTagRow :=
  ⟨rt.OrgRepoName, rt.TagName, rt.ModulePath, rt.Created⟩

/-- One value of the `INSERT INTO repo_tags ... ON CONFLICT (org_repo_name, tag_name)
DO UPDATE SET created = EXCLUDED.created` statement: on a key conflict only the
`created` column is overwritten, otherwise the row is appended. -/
def upsertTag (ts : List RepoTagRow) (rt : RepoTag) : List RepoTagRow :=
  if ts.any (tagKeyMatches rt) then
    ts.map (fun row => if tagKeyMatches rt row then { row with created := rt.Created } else row)
  else ts ++ [toRow rt]

/-- The whole multi-values insert statement, applied value by value. -/
def upsertTags (ts : List RepoTagRow) (rts : List RepoTag) : List RepoTagRow :=
  rts.foldl upsertTag ts

/-- The `UPDATE repos SET indexing_finished = NOW() WHERE org_repo_name = $1 OR ...`
statement of `StoreRepoTags`. -/
def markLeaseFinished (names : List String) (now : Int) (repos : List RepoRow) :
    List RepoRow :=
  repos.map (fun r =>
    if names.contains r.org_repo_name then { r with indexing_finished := now } else r)

/-- Success/failure of each statement `StoreRepoTags` runs inside its transaction
(the delete, the insert, the lease update and the final commit). The database
decides these at run time; the embedding takes them as an oracle. -/
structure TxOutcome where
  deleteOK : Bool
  insertOK : Bool
  updateOK : Bool
  commitOK : Bool
deriving DecidableEq, Repr

/-- The outcome in which every statement succeeds. -/
def txAllOK : TxOutcome := ⟨true, true, true, true⟩

/-- Embedding of `DB.StoreRepoTags`: rejects an empty input, then runs
delete + insert + lease-update inside one transaction (`BeginTx` ... deferred
`Rollback` ... `Commit`). A failed statement aborts the transaction, leaving the
visible state as it was; only a successful commit publishes all three writes. -/
def StoreRepoTags (oc : TxOutcome) (s : DBState) (now : Int) (repoTags : List RepoTag) :
    DBState × Option String :=
  if repoTags.isEmpty then
    (s, some "StoreRepoTags called with 0 repo tags")
  else
    let names := repoTags.map RepoTag.OrgRepoName
    if !oc.deleteOK then (s, some "StoreRepoTags: delete error") else
    let tx1 : DBState := { s with repo_tags := deleteTagsFor names s.repo_tags }
    if !oc.insertOK then (s, some "StoreRepoTags: insert error") else
    let tx2 : DBState := { tx1 with repo_tags := upsertTags tx1.repo_tags repoTags }
    if !oc.updateOK then (s, some "StoreRepoTags: update error") else
    let tx3 : DBState := { tx2 with repos := markLeaseFinished names now tx2.repos }
    if !oc.commitOK then (s, some "StoreRepoTags: commit error") else
    (tx3, none)

/-- One value of the `INSERT INTO repos (org_repo_name) VALUES ...
ON CONFLICT (org_repo_name) DO NOTHING` statement: a row whose key already
exists is left untouched; a new name is appended with only its key given, so
both lease columns receive their schema default. The migration SQL staged in
src/index_test.go declares `indexing_began TIMESTAMP DEFAULT TIMESTAMP
'-infinity'`, and `indexing_finished` likewise: in Postgres `-infinity` is
strictly older than every finite timestamp. The integer time domain of this
embedding ranges over the finite timestamps and has no bottom element, so the
value the engine writes for that default is taken as the explicit argument
`negInfinity`, and the theorems about `StoreRepos` below are proved for every
value of it rather than for one finite stand-in. -/
def insertRepoName (negInfinity : Int) (rows : List RepoRow) (name : String) :
    List RepoRow :=
  if rows.any (fun r => r.org_repo_name == name) then rows
  else rows ++ [⟨name, negInfinity, negInfinity⟩]

/-- Embedding of `DB.StoreRepos`: rejects an empty input, then runs the single
insert statement (which the database may also fail, modelled by `ok`);
`negInfinity` is the engine-written denotation of the schema's
`TIMESTAMP '-infinity'` column default. -/
def StoreRepos (negInfinity : Int) (ok : Bool) (s : DBState) (names : List String) :
    DBState × Option String :=
  if names.isEmpty then (s, some "StoreRepos called with 0 repos")
  else if !ok then (s, some "StoreRepos: exec error")
  else ({ s with repos := names.foldl (insertRepoName negInfinity) s.repos }, none)

/-- Claim C4: every `StoreRepoTags` call applies the tag delete, the tag insert
and the `indexing_finished` update as one transaction: whatever statements fail,
either the call returns no error and all three writes are visible, or it returns
an error and the whole state (Catalog Store and Lease Store) is untouched; and
when every statement succeeds the call returns no error. -/
theorem storeRepoTags_atomic (oc : TxOutcome) (s : DBState) (now : Int) (rts : List RepoTag) :
    ((StoreRepoTags oc s now rts).2 = none →
      (StoreRepoTags oc s now rts).1 =
        { repo_indexing := s.repo_indexing,
          repos := markLeaseFinished (rts.map RepoTag.OrgRepoName) now s.repos,
          repo_tags :=
            upsertTags (deleteTagsFor (rts.map RepoTag.OrgRepoName) s.repo_tags) rts }) ∧
    ((StoreRepoTags oc s now rts).2 ≠ none → (StoreRepoTags oc s now rts).1 = s) ∧
    (rts.isEmpty = false → (StoreRepoTags txAllOK s now rts).2 = none) := by
  obtain ⟨d, i, u, c⟩ := oc
  refine ⟨?_, ?_, ?_⟩ <;>
    cases hre : rts.isEmpty <;> cases d <;> cases i <;> cases u <;> cases c <;>
      simp [StoreRepoTags, txAllOK, hre]

/-- Witness for C4 at a concrete input: a successful store of one tag applies
all three writes, and a store whose commit fails leaves the state unchanged. -/
theorem storeRepoTags_atomic_witness :
    ((StoreRepoTags txAllOK ⟨[], [⟨"a/b", 0, 0⟩], []⟩ 9 [⟨"a/b", "v1", "m", 5⟩]).1 =
      { repo_indexing := [],
        repos := markLeaseFinished (([⟨"a/b", "v1", "m", 5⟩] : List RepoTag).map
          RepoTag.OrgRepoName) 9 [⟨"a/b", 0, 0⟩],
        repo_tags := upsertTags (deleteTagsFor (([⟨"a/b", "v1", "m", 5⟩] : List RepoTag).map
          RepoTag.OrgRepoName) []) [⟨"a/b", "v1", "m", 5⟩] }) ∧
    ((StoreRepoTags ⟨true, true, true, false⟩ ⟨[], [⟨"a/b", 0, 0⟩], []⟩ 9
        [⟨"a/b", "v1", "m", 5⟩]).1 = ⟨[], [⟨"a/b", 0, 0⟩], []⟩) := by
  constructor
  · exact (storeRepoTags_atomic txAllOK ⟨[], [⟨"a/b", 0, 0⟩], []⟩ 9
      [⟨"a/b", "v1", "m", 5⟩]).1 (by decide)
  · exact (storeRepoTags_atomic ⟨true, true, true, false⟩ ⟨[], [⟨"a/b", 0, 0⟩], []⟩ 9
      [⟨"a/b", "v1", "m", 5⟩]).2.1 (by decide)

/-- Claim C9: calling `StoreRepos` or `StoreRepoTags` with an empty input list
returns an error and leaves the state (Catalog Store and Lease Store) completely
unchanged, whatever the database would have done with the statements. -/
theorem storeEmpty_rejected (negInfinity : Int) (ok : Bool) (oc : TxOutcome)
    (s : DBState) (now : Int) :
    (StoreRepos negInfinity ok s []).1 = s ∧
    (StoreRepos negInfinity ok s []).2.isSome = true ∧
    (StoreRepoTags oc s now []).1 = s ∧ (StoreRepoTags oc s now []).2.isSome = true :=
  ⟨rfl, rfl, rfl, rfl⟩

lemma foldl_insertRepoName_spec (negInfinity : Int) (names : List String) :
    ∀ rows : List RepoRow, ∃ extra : List RepoRow,
      names.foldl (insertRepoName negInfinity) rows = rows ++ extra ∧
      ∀ r ∈ extra, r.indexing_began = negInfinity ∧
        r.indexing_finished = negInfinity ∧
        r.org_repo_name ∈ names ∧ ∀ old ∈ rows, old.org_repo_name ≠ r.org_repo_name := by
  induction names with
  | nil => intro rows; exact ⟨[], by simp, by simp⟩
  | cons n ns ih =>
    intro rows
    simp only [List.foldl_cons]
    by_cases h : rows.any (fun r => r.org_repo_name == n) = true
    · obtain ⟨extra, heq, hprops⟩ := ih rows
      refine ⟨extra, ?_, ?_⟩
      · rw [insertRepoName, if_pos h, heq]
      · intro r hr
        obtain ⟨h1, h2, h3, h4⟩ := hprops r hr
        exact ⟨h1, h2, List.mem_cons_of_mem _ h3, h4⟩
    · obtain ⟨extra, heq, hprops⟩ := ih (rows ++ [⟨n, negInfinity, negInfinity⟩])
      refine ⟨⟨n, negInfinity, negInfinity⟩ :: extra, ?_, ?_⟩
      · rw [insertRepoName, if_neg h, heq, List.append_assoc]
        rfl
      · intro r hr
        rcases List.mem_cons.mp hr with hr | hr
        · subst hr
          refine ⟨rfl, rfl, List.mem_cons_self n ns, ?_⟩
          intro old hold hcon
          simp only [List.any_eq_true, beq_iff_eq] at h
          exact h ⟨old, hold, hcon⟩
        · obtain ⟨h1, h2, h3, h4⟩ := hprops r hr
          exact ⟨h1, h2, List.mem_cons_of_mem _ h3,
            fun old hold => h4 old (List.mem_append_left _ hold)⟩

/-- Claim C10: a successful `StoreRepos` extends the `repos` table by rows for
names not yet present (their lease columns carrying the engine-written schema
default, whatever value denotes `TIMESTAMP '-infinity'`) and touches nothing
else: every existing row, lease timestamps included, survives unchanged in
place, and the other tables are untouched. -/
theorem storeRepos_existing_rows_untouched (negInfinity : Int) (s : DBState)
    (names : List String) (h : names ≠ []) :
    ∃ extra : List RepoRow,
      (StoreRepos negInfinity true s names).1.repos = s.repos ++ extra ∧
      (∀ r ∈ extra, r.indexing_began = negInfinity ∧
        r.indexing_finished = negInfinity ∧
        r.org_repo_name ∈ names ∧ ∀ old ∈ s.repos, old.org_repo_name ≠ r.org_repo_name) ∧
      (StoreRepos negInfinity true s names).1.repo_tags = s.repo_tags ∧
      (StoreRepos negInfinity true s names).1.repo_indexing = s.repo_indexing ∧
      (StoreRepos negInfinity true s names).2 = none := by
  obtain ⟨extra, heq, hprops⟩ := foldl_insertRepoName_spec negInfinity names s.repos
  have hne : names.isEmpty = false := by cases names <;> simp_all
  exact ⟨extra, by simp [StoreRepos, hne, heq], hprops,
    by simp [StoreRepos, hne], by simp [StoreRepos, hne], by simp [StoreRepos, hne]⟩

/-- Witness for C10 at a concrete input: storing `["a/b", "c/d"]` over a table
that already holds an `"a/b"` row with live lease timestamps (the default
denotation instantiated at -1). -/
theorem storeRepos_existing_rows_untouched_witness :
    ∃ extra : List RepoRow,
      (StoreRepos (-1) true ⟨[], [⟨"a/b", 1, 2⟩], []⟩ ["a/b", "c/d"]).1.repos =
        [⟨"a/b", 1, 2⟩] ++ extra ∧
      (∀ r ∈ extra, r.indexing_began = -1 ∧
        r.indexing_finished = -1 ∧
        r.org_repo_name ∈ ["a/b", "c/d"] ∧
        ∀ old ∈ [(⟨"a/b", 1, 2⟩ : RepoRow)], old.org_repo_name ≠ r.org_repo_name) ∧
      (StoreRepos (-1) true ⟨[], [⟨"a/b", 1, 2⟩], []⟩ ["a/b", "c/d"]).1.repo_tags = [] ∧
      (StoreRepos (-1) true ⟨[], [⟨"a/b", 1, 2⟩], []⟩ ["a/b", "c/d"]).1.repo_indexing = [] ∧
      (StoreRepos (-1) true ⟨[], [⟨"a/b", 1, 2⟩], []⟩ ["a/b", "c/d"]).2 = none :=
  storeRepos_existing_rows_untouched (-1) ⟨[], [⟨"a/b", 1, 2⟩], []⟩ ["a/b", "c/d"] (by simp)

lemma storeRepoTags_allOK_repo_tags (s : DBState) (now : Int) (rts : List RepoTag)
    (h : rts.isEmpty = false) :
    (StoreRepoTags txAllOK s now rts).1.repo_tags =
      upsertTags (deleteTagsFor (rts.map RepoTag.OrgRepoName) s.repo_tags) rts := by
  simp [StoreRepoTags, txAllOK, h]

lemma contains_names_iff {rts : List RepoTag} {repo : String}
    (hne : rts ≠ []) (hall : ∀ rt ∈ rts, rt.OrgRepoName = repo) :
    ∀ x : String, (rts.map RepoTag.OrgRepoName).contains x = true ↔ x = repo := by
  intro x
  rw [List.contains_iff_exists_mem_beq]
  constructor
  · rintro ⟨y, hy, hbeq⟩
    obtain ⟨rt, hrt, hrty⟩ := List.mem_map.mp hy
    have : x = y := by simpa using hbeq
    rw [this, ← hrty]
    exact hall rt hrt
  · intro hx
    obtain ⟨rt, hrt⟩ := List.exists_mem_of_ne_nil rts hne
    exact ⟨rt.OrgRepoName, List.mem_map_of_mem _ hrt,
      by simp [hx, hall rt hrt]⟩

lemma deleteTagsFor_eq_filter {rts : List RepoTag} {repo : String}
    (hne : rts ≠ []) (hall : ∀ rt ∈ rts, rt.OrgRepoName = repo) (ts : List RepoTagRow) :
    deleteTagsFor (rts.map RepoTag.OrgRepoName) ts =
      ts.filter (fun t => !(t.org_repo_name == repo)) := by
  unfold deleteTagsFor
  apply List.filter_congr
  intro t _
  have hc := contains_names_iff hne hall t.org_repo_name
  cases h : (rts.map RepoTag.OrgRepoName).contains t.org_repo_name with
  | true => simp [hc.mp h]
  | false =>
    have : ¬ t.org_repo_name = repo := fun hcon => by
      have hT := hc.mpr hcon
      rw [h] at hT
      cases hT
    simp [this]

lemma upsertTags_no_conflict (rts : List RepoTag) :
    ∀ ts : List RepoTagRow,
      (∀ rt ∈ rts, ts.any (tagKeyMatches rt) = false) →
      List.Pairwise (fun a b => a.OrgRepoName ≠ b.OrgRepoName ∨ a.TagName ≠ b.TagName) rts →
      upsertTags ts rts = ts ++ rts.map toRow := by
  induction rts with
  | nil => intro ts _ _; simp [upsertTags]
  | cons rt rest ih =>
    intro ts hnc hpw
    have h0 : ts.any (tagKeyMatches rt) = false := hnc rt (List.mem_cons_self rt rest)
    have hstep : upsertTag ts rt = ts ++ [toRow rt] := by
      rw [upsertTag, if_neg (by simp [h0])]
    have hrest : ∀ rt2 ∈ rest, (ts ++ [toRow rt]).any (tagKeyMatches rt2) = false := by
      intro rt2 hrt2
      rw [List.any_append]
      have h1 : ts.any (tagKeyMatches rt2) = false :=
        hnc rt2 (List.mem_cons_of_mem rt hrt2)
      have h2 : tagKeyMatches rt2 (toRow rt) = false := by
        rcases (List.pairwise_cons.mp hpw).1 rt2 hrt2 with hd | hd <;>
          simp [tagKeyMatches, toRow] <;> intro hcon <;> simp_all
      simp [h1, h2]
    have := ih (ts ++ [toRow rt]) hrest (List.pairwise_cons.mp hpw).2
    rw [upsertTags] at this ⊢
    rw [List.foldl_cons, hstep, this, List.append_assoc]
    rfl

lemma no_conflict_after_delete {rts : List RepoTag} {repo : String}
    (hall : ∀ rt ∈ rts, rt.OrgRepoName = repo) (ts : List RepoTagRow) :
    ∀ rt ∈ rts, ((ts.filter (fun t => !(t.org_repo_name == repo))).any
      (tagKeyMatches rt)) = false := by
  intro rt hrt
  rw [List.any_eq_false]
  intro t ht
  have hmem := List.mem_filter.mp ht
  have : ¬ t.org_repo_name = repo := by simpa using hmem.2
  simp only [tagKeyMatches, Bool.and_eq_true, beq_iff_eq, not_and]
  intro hcon
  rw [hall rt hrt] at hcon
  simp_all

lemma filter_swap_nil (ts : List RepoTagRow) (repo : String) :
    (ts.filter (fun t => !(t.org_repo_name == repo))).filter
      (fun t => t.org_repo_name == repo) = [] := by
  induction ts with
  | nil => rfl
  | cons t ts ih =>
    by_cases h : (t.org_repo_name == repo) = true <;>
      simp [List.filter_cons, h, ih]

/-- Claim C3: a successful `StoreRepoTags` with a non-empty crawl result for one
repository leaves the stored tag set of that repository exactly equal to the
given set, whatever was stored before (in particular storing tag set A,B and
then B,C leaves exactly B,C); tags of other repositories survive; and storing
the same crawl result twice leaves the `repo_tags` table (the Catalog Store) in
the same state as storing it once. -/
theorem storeRepoTags_full_replacement (s : DBState) (repo : String) (now now2 : Int)
    (rts : List RepoTag) (hne : rts ≠ [])
    (hall : ∀ rt ∈ rts, rt.OrgRepoName = repo)
    (hnd : (rts.map RepoTag.TagName).Nodup) :
    ((StoreRepoTags txAllOK s now rts).1.repo_tags.filter
      (fun t => t.org_repo_name == repo)) = rts.map toRow ∧
    (∀ t ∈ s.repo_tags, t.org_repo_name ≠ repo →
      t ∈ (StoreRepoTags txAllOK s now rts).1.repo_tags) ∧
    ((StoreRepoTags txAllOK (StoreRepoTags txAllOK s now rts).1 now2 rts).1.repo_tags =
      (StoreRepoTags txAllOK s now rts).1.repo_tags) := by
  have hemp : rts.isEmpty = false := by cases rts <;> simp_all
  have hpw : List.Pairwise
      (fun a b => a.OrgRepoName ≠ b.OrgRepoName ∨ a.TagName ≠ b.TagName) rts := by
    have := (List.pairwise_map.mp hnd)
    exact this.imp (fun h => Or.inr h)
  have hkey : ∀ ts : List RepoTagRow,
      upsertTags (deleteTagsFor (rts.map RepoTag.OrgRepoName) ts) rts =
        ts.filter (fun t => !(t.org_repo_name == repo)) ++ rts.map toRow := by
    intro ts
    rw [deleteTagsFor_eq_filter hne hall]
    exact upsertTags_no_conflict rts _ (no_conflict_after_delete hall ts) hpw
  have h1 : (StoreRepoTags txAllOK s now rts).1.repo_tags =
      s.repo_tags.filter (fun t => !(t.org_repo_name == repo)) ++ rts.map toRow := by
    rw [storeRepoTags_allOK_repo_tags s now rts hemp, hkey]
  refine ⟨?_, ?_, ?_⟩
  · rw [h1, List.filter_append, filter_swap_nil]
    rw [List.filter_eq_self.mpr]
    · rfl
    · intro t ht
      obtain ⟨rt, hrt, hrte⟩ := List.mem_map.mp ht
      rw [← hrte]
      simp [toRow, hall rt hrt]
  · intro t ht hrepo
    rw [h1]
    apply List.mem_append_left
    rw [List.mem_filter]
    exact ⟨ht, by simpa using hrepo⟩
  · rw [storeRepoTags_allOK_repo_tags _ now2 rts hemp, hkey, h1]
    congr 1
    rw [List.filter_append]
    have h2 : (rts.map toRow).filter (fun t => !(t.org_repo_name == repo)) = [] := by
      rw [List.filter_eq_nil_iff]
      intro t ht
      obtain ⟨rt, hrt, hrte⟩ := List.mem_map.mp ht
      rw [← hrte]
      simp [toRow, hall rt hrt]
    rw [h2, List.append_nil, List.filter_eq_self.mpr]
    intro t ht
    exact (List.mem_filter.mp ht).2

/-- Concrete pre-state for the C3 witness: repo `a/b` already has tags A and B. -/
def c3Before : DBState := ⟨[], [], [⟨"a/b", "A", "m", 1⟩, ⟨"a/b", "B", "m", 2⟩]⟩

/-- Concrete crawl result for the C3 witness: tags B and C for repo `a/b`. -/
def c3Crawl : List RepoTag := [⟨"a/b", "B", "m", 2⟩, ⟨"a/b", "C", "m", 3⟩]

/-- Witness for C3 at a concrete input: storing tag set B,C over stored A,B. -/
theorem storeRepoTags_full_replacement_witness :
    (c3Crawl ≠ [] ∧ (c3Crawl.map RepoTag.TagName).Nodup) ∧
    (((StoreRepoTags txAllOK c3Before 9 c3Crawl).1.repo_tags.filter
        (fun t => t.org_repo_name == "a/b")) = c3Crawl.map toRow ∧
      (∀ t ∈ c3Before.repo_tags, t.org_repo_name ≠ "a/b" →
        t ∈ (StoreRepoTags txAllOK c3Before 9 c3Crawl).1.repo_tags) ∧
      ((StoreRepoTags txAllOK (StoreRepoTags txAllOK c3Before 9 c3Crawl).1 11
          c3Crawl).1.repo_tags = (StoreRepoTags txAllOK c3Before 9 c3Crawl).1.repo_tags)) :=
  ⟨⟨by decide, by decide⟩,
    storeRepoTags_full_replacement c3Before "a/b" 9 11 c3Crawl (by decide)
      (by decide) (by decide)⟩

/-- The `github.RepoTag` struct produced by the forge client (`TagsForRepo`). -/
structure GHRepoTag where
  Tag : String
  TagDate : Int
  ModulePath : String
deriving DecidableEq, Repr

/-- One iteration of the tag-reindex worker loop of `main`: acquire work via
`NextReindexRepoTagsWork`; if none, wait (state unchanged). On work, crawl the
repository; a crawl with zero tags hits `if len(repoTags) == 0 \x7b continue \x7d`
and goes straight back to acquiring (no storage, no lease update); otherwise the
crawled tags are stored through `StoreRepoTags` (error-free database path). -/
def tagReindexWorkerStep (s : DBState) (nowAcq nowStore ttl period : Int)
    (crawl : String → List GHRepoTag) : DBState :=
  match NextReindexRepoTagsWork s.repos nowAcq ttl period with
  | (none, _) => s
  | (some name, repos2) =>
    let s1 : DBState := { s with repos := repos2 }
    let ts := crawl name
    if ts.isEmpty then s1
    else
      (StoreRepoTags txAllOK s1 nowStore
        (ts.map (fun t => ⟨name, t.Tag, t.ModulePath, t.TagDate⟩))).1

/-- Counterexample to C5 at a concrete input: repo `a/b` (eligible, last
finished at time 7) is acquired at time 100 and its crawl succeeds with zero
tags. The iteration leaves `indexing_finished = 7` — completion is never
recorded — and the repo is re-eligible only once the TTL has lapsed
(ineligible at time 105, eligible again at 111 with ttl 10). -/
theorem tagReindexWorkerStep_zeroTags_counterexample :
    (tagReindexWorkerStep ⟨[], [⟨"a/b", 0, 7⟩], []⟩ 100 100 10 10
      (fun _ => [])).repos = [⟨"a/b", 100, 7⟩] ∧
    ((7 : Int) ≠ 100) ∧
    repoEligible 105 10 10 ⟨"a/b", 100, 7⟩ = false ∧
    repoEligible 111 10 10 ⟨"a/b", 100, 7⟩ = true := by
  refine ⟨?_, by decide, by decide, by decide⟩
  decide

lemma nextReindexRepoTags_began_only (rows : List RepoRow) (now ttl period : Int) :
    (NextReindexRepoTagsWork rows now ttl period).2.map RepoRow.indexing_finished =
      rows.map RepoRow.indexing_finished ∧
    (NextReindexRepoTagsWork rows now ttl period).2.map RepoRow.org_repo_name =
      rows.map RepoRow.org_repo_name := by
  unfold NextReindexRepoTagsWork
  cases hs : oldestFinished (rows.filter (repoEligible now ttl period)) with
  | none => exact ⟨rfl, rfl⟩
  | some sel =>
    constructor <;>
    · simp only [List.map_map]
      apply List.map_congr_left
      intro r _
      simp only [Function.comp]
      split <;> rfl

/-- Claim C5 (amended): when a crawl completes successfully with zero tags, the
worker skips storage and does not record completion: no repository row has its
`indexing_finished` changed by the iteration (names and the tag table are
likewise untouched), so the acquired repository becomes eligible again only via
TTL expiry. -/
theorem tagReindexWorkerStep_zeroTags_skips_finish (s : DBState)
    (nowAcq nowStore ttl period : Int) (crawl : String → List GHRepoTag)
    (hc : ∀ name, crawl name = []) :
    (tagReindexWorkerStep s nowAcq nowStore ttl period crawl).repos.map
      RepoRow.indexing_finished = s.repos.map RepoRow.indexing_finished ∧
    (tagReindexWorkerStep s nowAcq nowStore ttl period crawl).repos.map
      RepoRow.org_repo_name = s.repos.map RepoRow.org_repo_name ∧
    (tagReindexWorkerStep s nowAcq nowStore ttl period crawl).repo_tags =
      s.repo_tags := by
  unfold tagReindexWorkerStep
  cases hsel : NextReindexRepoTagsWork s.repos nowAcq ttl period with
  | mk fst repos2 =>
    cases fst with
    | none => exact ⟨rfl, rfl, rfl⟩
    | some name =>
      simp only [hc, List.isEmpty_nil, if_true]
      have h2 : repos2 = (NextReindexRepoTagsWork s.repos nowAcq ttl period).2 := by
        rw [hsel]
      have hp := nextReindexRepoTags_began_only s.repos nowAcq ttl period
      refine ⟨by rw [h2]; exact hp.1, by rw [h2]; exact hp.2, ?_⟩
      trivial

/-- Witness for the amended C5 at a concrete input: one eligible repo, a crawl
returning zero tags. -/
theorem tagReindexWorkerStep_zeroTags_skips_finish_witness :
    (tagReindexWorkerStep ⟨[], [⟨"a/b", 0, 7⟩], []⟩ 100 100 10 10
      (fun _ => [])).repos.map RepoRow.indexing_finished =
        [(⟨"a/b", 0, 7⟩ : RepoRow)].map RepoRow.indexing_finished ∧
    (tagReindexWorkerStep ⟨[], [⟨"a/b", 0, 7⟩], []⟩ 100 100 10 10
      (fun _ => [])).repos.map RepoRow.org_repo_name =
        [(⟨"a/b", 0, 7⟩ : RepoRow)].map RepoRow.org_repo_name ∧
    (tagReindexWorkerStep ⟨[], [⟨"a/b", 0, 7⟩], []⟩ 100 100 10 10
      (fun _ => [])).repo_tags = [] :=
  tagReindexWorkerStep_zeroTags_skips_finish ⟨[], [⟨"a/b", 0, 7⟩], []⟩ 100 100 10 10
    (fun _ => []) (fun _ => rfl)

/-- Result of `goModForRepo`: either the query failed, or it returned the go.mod
blob text (the empty string when the file is absent at that tag). -/
inductive GoModFetch where
  | fetchFailed (msg : String) : GoModFetch
  | contents (text : String) : GoModFetch
deriving DecidableEq, Repr

/-- The part of `modfile.File` the code reads: the `module` directive, if any. -/
structure ModFile where
  Module : Option String
deriving DecidableEq, Repr

/-- Result of `modfile.Parse`: on failure it returns a nil `*File` together with
the error; on success, a file value. -/
inductive ParseOutcome where
  | failure : ParseOutcome
  | success (f : ModFile) : ParseOutcome
deriving DecidableEq, Repr

/-- What happens to one tag in the module-path resolution block of
`TagsForRepo`: either it is appended to the results with the given module path,
or the goroutine panics (a nil-pointer dereference). -/
inductive TagResolution where
  | included (modulePath : String) : TagResolution
  | panicked : TagResolution
deriving DecidableEq, Repr

/-- `repo.asModulePath()`: `host/org/name`. -/
def asModulePath (host org name : String) : String :=
  host ++ "/" ++ org ++ "/" ++ name

/-- Embedding of the per-tag module-path block of `TagsForRepo`
(src/internal/github/github.go): on a fetch error the path defaults to
`asModulePath`; on an absent file (empty contents) it also defaults; on
non-empty contents the code calls `modfile.Parse` and then unconditionally reads
`file.Module` — when `Parse` failed, `file` is nil and that read panics; when it
succeeded, a present `module` directive gives the declared path and an absent
one leaves the zero-value path `""`. The tag is appended in every non-panic
case. -/
def resolveModulePath (host org name : String) (gm : GoModFetch)
    (parse : String → ParseOutcome) : TagResolution :=
  match gm with
  | .fetchFailed _ => .included (asModulePath host org name)
  | .contents text =>
    if text = "" then .included (asModulePath host org name)
    else
      match parse text with
      | .failure => .panicked
      | .success f =>
        match f.Module with
        | some p => .included p
        | none => .included ""

/-- Claim C6, evaluated at the failing input: a tag whose go.mod text declares
`example.com/foo` resolves to exactly that path regardless of forge host, and a
tag with no go.mod resolves to `host/org/name`; but a tag whose go.mod is
present and unparseable makes `TagsForRepo` panic on the nil parse result
instead of excluding the tag from the result set. -/
theorem resolveModulePath_unparseable_panics :
    resolveModulePath "github.example.net" "corp" "repo1" (.contents "garbage")
      (fun _ => .failure) = .panicked ∧
    resolveModulePath "github.example.net" "corp" "repo1"
      (.contents "module example.com/foo")
      (fun _ => .success ⟨some "example.com/foo"⟩) = .included "example.com/foo" ∧
    resolveModulePath "otherhost.example.net" "corp" "repo1"
      (.contents "module example.com/foo")
      (fun _ => .success ⟨some "example.com/foo"⟩) = .included "example.com/foo" ∧
    resolveModulePath "github.example.net" "corp" "repo1" (.contents "")
      (fun _ => .failure) = .included "github.example.net/corp/repo1" := by
  refine ⟨rfl, rfl, rfl, ?_⟩
  simp [resolveModulePath, asModulePath]

/-- Embedding of the tag-date block of `TagsForRepo`: the commit date is taken
when non-zero, else the tagger date when non-zero, else the date stays the
zero value (0 models Go's zero `time.Time`). -/
def resolveTagDate (committedDate taggerDate : Int) : Int :=
  if committedDate ≠ 0 then committedDate
  else if taggerDate ≠ 0 then taggerDate
  else 0

/-- Claim C7: the effective tag date prefers a non-zero commit date, then a
non-zero tagger date, else stays unset; in particular a tag with only a commit
date gets exactly that commit date, and a tag with only a tagger date gets
exactly that tagger date. -/
theorem resolveTagDate_precedence (c t : Int) :
    (c ≠ 0 → resolveTagDate c t = c) ∧
    (c = 0 → t ≠ 0 → resolveTagDate c t = t) ∧
    (c = 0 → t = 0 → resolveTagDate c t = 0) ∧
    (c ≠ 0 → t = 0 → resolveTagDate c t = c) ∧
    (c = 0 → t ≠ 0 → resolveTagDate c t = t) := by
  refine ⟨?_, ?_, ?_, ?_, ?_⟩ <;> intro h1 <;> try intro h2
  · simp [resolveTagDate, h1]
  · simp [resolveTagDate, h1, h2]
  · simp [resolveTagDate, h1, h2]
  · simp [resolveTagDate, h1]
  · simp [resolveTagDate, h1, h2]

/-- Witness for C7 at concrete inputs: only a commit date (5) and only a tagger
date (7). -/
theorem resolveTagDate_precedence_witness :
    ((5 : Int) ≠ 0 ∧ resolveTagDate 5 0 = 5) ∧
    ((0 : Int) = 0 ∧ (7 : Int) ≠ 0 ∧ resolveTagDate 0 7 = 7) :=
  ⟨⟨by decide, (resolveTagDate_precedence 5 0).2.2.2.1 (by decide) (by decide)⟩,
   ⟨rfl, by decide, (resolveTagDate_precedence 0 7).2.1 rfl (by decide)⟩⟩

/-- Insertion step realising `ORDER BY created DESC`: place the row before the
first stored row with a strictly smaller `created`. -/
def insertCreatedDesc (r : RepoTagRow) : List RepoTagRow → List RepoTagRow
  | [] => [r]
  | x :: xs => if x.created < r.created then r :: x :: xs else x :: insertCreatedDesc r xs

/-- `ORDER BY created DESC` as an insertion sort (ties keep their relative
order; SQL leaves tie order unspecified, any deterministic order is a faithful
refinement). -/
def sortCreatedDesc (ts : List RepoTagRow) : List RepoTagRow :=
  ts.foldr insertCreatedDesc []

/-- Embedding of `DB.FetchRepoTags`:
`SELECT ... FROM repo_tags WHERE created >= $1 ORDER BY created DESC LIMIT $2`. -/
def FetchRepoTags (ts : List RepoTagRow) (since : Int) (limit : Nat) : List RepoTagRow :=
  (sortCreatedDesc (ts.filter (fun t => decide (since ≤ t.created)))).take limit

lemma mem_insertCreatedDesc {y r : RepoTagRow} {l : List RepoTagRow} :
    y ∈ insertCreatedDesc r l ↔ y = r ∨ y ∈ l := by
  induction l with
  | nil => simp [insertCreatedDesc]
  | cons x xs ih =>
    simp only [insertCreatedDesc]
    split
    · simp [List.mem_cons]
    · simp only [List.mem_cons, ih]
      tauto

lemma mem_sortCreatedDesc {y : RepoTagRow} {ts : List RepoTagRow} :
    y ∈ sortCreatedDesc ts ↔ y ∈ ts := by
  induction ts with
  | nil => simp [sortCreatedDesc]
  | cons x xs ih =>
    simp only [sortCreatedDesc, List.foldr_cons] at ih ⊢
    rw [mem_insertCreatedDesc, ih, List.mem_cons]

lemma pairwise_insertCreatedDesc {r : RepoTagRow} {l : List RepoTagRow}
    (h : List.Pairwise (fun a b => b.created ≤ a.created) l) :
    List.Pairwise (fun a b => b.created ≤ a.created) (insertCreatedDesc r l) := by
  induction l with
  | nil => simp [insertCreatedDesc]
  | cons x xs ih =>
    obtain ⟨hx, hxs⟩ := List.pairwise_cons.mp h
    simp only [insertCreatedDesc]
    split
    · rename_i hlt
      rw [List.pairwise_cons]
      refine ⟨?_, h⟩
      intro y hy
      rcases List.mem_cons.mp hy with hy | hy
      · subst hy
        omega
      · have := hx y hy
        omega
    · rename_i hge
      rw [List.pairwise_cons]
      refine ⟨?_, ih hxs⟩
      intro y hy
      rcases mem_insertCreatedDesc.mp hy with hy | hy
      · subst hy
        omega
      · exact hx y hy

lemma pairwise_sortCreatedDesc (ts : List RepoTagRow) :
    List.Pairwise (fun a b => b.created ≤ a.created) (sortCreatedDesc ts) := by
  induction ts with
  | nil => simp [sortCreatedDesc]
  | cons x xs ih =>
    simp only [sortCreatedDesc, List.foldr_cons] at ih ⊢
    exact pairwise_insertCreatedDesc ih

/-- Claim C8 (amended): the feed query returns only stored tags whose `created`
is at least `since`, ordered by `created` descending and truncated to `limit`;
with `since` strictly between the oldest tag and the two newer ones and
`limit = 1` it returns exactly one row — the newest qualifying tag `t3` (the
first in descending order), not `t2`. -/
theorem fetchRepoTags_spec (ts : List RepoTagRow) (since : Int) (limit : Nat) :
    (∀ r ∈ FetchRepoTags ts since limit, since ≤ r.created) ∧
    (∀ r ∈ FetchRepoTags ts since limit, r ∈ ts) ∧
    List.Pairwise (fun a b => b.created ≤ a.created) (FetchRepoTags ts since limit) ∧
    (FetchRepoTags ts since limit).length ≤ limit ∧
    (∀ r1 r2 r3 : RepoTagRow, r1.created < since → since ≤ r2.created →
      r2.created < r3.created → FetchRepoTags [r1, r2, r3] since 1 = [r3]) := by
  refine ⟨?_, ?_, ?_, ?_, ?_⟩
  · intro r hr
    have h1 := List.mem_of_mem_take hr
    have h2 := mem_sortCreatedDesc.mp h1
    have := List.of_mem_filter h2
    simpa using this
  · intro r hr
    have h1 := List.mem_of_mem_take hr
    have h2 := mem_sortCreatedDesc.mp h1
    exact List.mem_of_mem_filter h2
  · exact (pairwise_sortCreatedDesc _).sublist (List.take_sublist _ _)
  · exact List.length_take_le _ _
  · intro r1 r2 r3 h1 h2 h3
    have hf : ([r1, r2, r3].filter (fun t => decide (since ≤ t.created))) = [r2, r3] := by
      simp [List.filter_cons, h2, le_of_lt (lt_of_le_of_lt h2 h3), not_le.mpr h1]
    unfold FetchRepoTags
    rw [hf]
    unfold sortCreatedDesc
    simp only [List.foldr_cons, List.foldr_nil]
    simp only [insertCreatedDesc]
    rw [if_neg (by omega)]
    simp [insertCreatedDesc]

/-- Counterexample to C8 as stated: over tags with `created` timestamps
1 < 2 (= since) < 3 < 4, the query with `limit = 1` returns the tag with
timestamp 4 (`t3`), not the tag with timestamp 3 (`t2`) that the claim names:
`ORDER BY created DESC LIMIT 1` yields the newest qualifying row. -/
theorem fetchRepoTags_since_limit_counterexample :
    FetchRepoTags [⟨"a/a", "v1", "m", 1⟩, ⟨"a/a", "v2", "m", 3⟩, ⟨"a/a", "v3", "m", 4⟩] 2 1 =
      [⟨"a/a", "v3", "m", 4⟩] ∧
    (⟨"a/a", "v3", "m", 4⟩ : RepoTagRow) ≠ ⟨"a/a", "v2", "m", 3⟩ :=
  ⟨by decide, by decide⟩

/-- Witness for the amended C8 at a concrete input. -/
theorem fetchRepoTags_spec_witness :
    ((1 : Int) < 2 ∧ (2 : Int) ≤ 3 ∧ (3 : Int) < 4) ∧
    FetchRepoTags [⟨"b/b", "w1", "m", 1⟩, ⟨"b/b", "w2", "m", 3⟩, ⟨"b/b", "w3", "m", 4⟩] 2 1 =
      [⟨"b/b", "w3", "m", 4⟩] :=
  ⟨⟨by decide, by decide, by decide⟩,
   (fetchRepoTags_spec [⟨"b/b", "w1", "m", 1⟩, ⟨"b/b", "w2", "m", 3⟩,
      ⟨"b/b", "w3", "m", 4⟩] 2 1).2.2.2.2
     ⟨"b/b", "w1", "m", 1⟩ ⟨"b/b", "w2", "m", 3⟩ ⟨"b/b", "w3", "m", 4⟩
     (by decide) (by decide) (by decide)⟩

end GolangIndex
